import Mathlib

/-!
Formal model of `cupyx/scipy/signal/_iir_filter_conversions.py`.

The purely rational parts of the code (coefficient trimming, `normalize`,
the `bilinear` convolution) are embedded over `ℚ`; the parts that use
transcendental functions (`buttap`, `ellipap`'s degeneracy check, the Landen
recursion of `_arc_jac_sn`) are embedded over `ℝ`/`ℂ`.  Each definition is a
line-by-line translation of the corresponding Python function; source line
numbers are given in the doc comments.  Python strings (the `trim` flag) are
modelled as `List Char`.
-/

namespace CupyxSignal

/-- Absolute tolerance of `cupy.allclose(col, 0, atol=1e-14)` in `normalize`
(line 137).  With reference value `0` the `allclose` bound is exactly
`atol + rtol * 0 = 1e-14`. -/
def atol : ℚ := 1 / 10 ^ 14

/-- The loop `for i in filt: if i != 0.: break; else: first = first + 1`
of `_trim_zeros` (lines 22-28): number of leading exact zeros. -/
def countLeadZeros : List ℚ → ℕ
  | [] => 0
  | x :: l => if x = 0 then countLeadZeros l + 1 else 0

/-- `_trim_zeros(filt, trim)` (lines 19-37).  The trailing-zero loop of the
source tests `'f' in trim` (line 31), not `'b' in trim` as in the numpy code
it was copied from; this is reproduced verbatim.  `filt[first:last]` is
`(filt.drop first).take (last - first)`. -/
def trim_zeros (filt : List ℚ) (trim : List Char) : List ℚ :=
  let first := if trim.contains 'f' then countLeadZeros filt else 0
  let last := if trim.contains 'f' then filt.length - countLeadZeros filt.reverse
              else filt.length
  (filt.drop first).take (last - first)

/-- Numerator value as returned by `normalize`: a 1-D row (after the final
squeeze, lines 152-153) or a 2-D block of rows. -/
abbrev NumOut := List ℚ ⊕ List (List ℚ)

/-- `_align_nums(nums)` (lines 40-79) for a list of rows: `cupy.asarray`
succeeds (and returns the input unchanged) iff all rows have equal length;
otherwise each row is left-padded with zeros to the maximal width
(`aligned_nums[index, -num.size:] = num`). -/
def align_nums (nums : List (List ℚ)) : List (List ℚ) :=
  let maxW := (nums.map List.length).foldr max 0
  if ∀ r ∈ nums, r.length = maxW then nums
  else nums.map (fun r => List.replicate (maxW - r.length) 0 ++ r)

/-- `cupy.atleast_2d` on the (aligned) numerator: an empty 1-D array becomes
one empty row, anything 2-D is unchanged. -/
def atleast2d (rows : List (List ℚ)) : List (List ℚ) :=
  if rows.isEmpty then [[]] else rows

/-- `cupy.atleast_2d(_align_nums(num))` (line 118): a 1-D numerator becomes a
single row, a 2-D numerator is aligned. -/
def toRank2 : NumOut → List (List ℚ)
  | .inl row => [row]
  | .inr rows => atleast2d (align_nums rows)

/-- Is column `j` of the row block numerically all-zero
(`cupy.allclose(col, 0, atol=1e-14)`, line 137)? -/
def ColSmall (rows : List (List ℚ)) (j : ℕ) : Prop :=
  ∀ r ∈ rows, |r.getD j 0| ≤ atol

instance (rows : List (List ℚ)) (j : ℕ) : Decidable (ColSmall rows j) :=
  List.decidableBAll _ rows

/-- The `for col in num.T: if allclose(col, 0): leading_zeros += 1 else:
break` loop (lines 135-140), starting at column `j` with `left` columns
remaining. -/
def countSmallFrom (rows : List (List ℚ)) : ℕ → ℕ → ℕ
  | _, 0 => 0
  | j, left + 1 =>
    if ColSmall rows j then countSmallFrom rows (j + 1) left + 1 else 0

/-- `if num.shape[0] == 1: num = num[0, :]` (lines 152-153). -/
def squeeze (rows : List (List ℚ)) : NumOut :=
  if rows.length = 1 then .inl (rows.headD []) else .inr rows

/-- Body of `normalize(b, a)` (lines 115-155) once the numerator has been
promoted to rank 2.  The rank checks of lines 120-124 are enforced by the
types.  The returned `Bool` records whether the `BadCoefficients` warning of
line 144 fired (the spec's ill-conditioning signal). -/
def normalizeCore (num : List (List ℚ)) (den : List ℚ) :
    Except Unit (NumOut × List ℚ × Bool) :=
  if ∀ x ∈ den, x = 0 then .error ()
  else
    let den1 := trim_zeros den ['f']
    let d0 := den1.headD 0
    let num1 := num.map (fun r => r.map (fun x => x / d0))
    let den2 := den1.map (fun x => x / d0)
    let ncols := (num1.headD []).length
    let lz := countSmallFrom num1 0 ncols
    if 0 < lz then
      let lz2 := if lz = ncols then lz - 1 else lz
      .ok (squeeze (num1.map (List.drop lz2)), den2, true)
    else
      .ok (squeeze num1, den2, false)

/-- `normalize(b, a)` (lines 82-155). -/
def normalize (b : NumOut) (a : List ℚ) : Except Unit (NumOut × List ℚ × Bool) :=
  normalizeCore (toRank2 b) a

/-- `comb(n, k)`: binomial coefficient (`cupyx.scipy.special.binom` on
integer arguments). -/
def comb (n k : ℕ) : ℚ := n.choose k

/-- `bilinear(b, a, fs)` (lines 501-565): Tustin substitution
`s -> 2*fs*(z-1)/(z+1)` as the source's nested finite sums, followed by
`normalize`. -/
def bilinear (b a : List ℚ) (fs : ℚ) : Except Unit (NumOut × List ℚ × Bool) :=
  let D := a.length - 1
  let N := b.length - 1
  let M := max N D
  let bprime := (List.range (M + 1)).map (fun j =>
    ((List.range (N + 1)).map (fun i =>
      ((List.range (i + 1)).map (fun k =>
        ((List.range (M - i + 1)).map (fun s =>
          if k + s = j then
            comb i k * comb (M - i) s * (b.getD (N - i) 0 * (2 * fs) ^ i) * (-1 : ℚ) ^ k
          else 0)).sum)).sum)).sum)
  let aprime := (List.range (M + 1)).map (fun j =>
    ((List.range (D + 1)).map (fun i =>
      ((List.range (i + 1)).map (fun k =>
        ((List.range (M - i + 1)).map (fun s =>
          if k + s = j then
            comb i k * comb (M - i) s * (a.getD (D - i) 0 * (2 * fs) ^ i) * (-1 : ℚ) ^ k
          else 0)).sum)).sum)).sum)
  normalize (.inl bprime) aprime

/-! Lemmas about `countLeadZeros` and `trim_zeros`. -/

theorem countLeadZeros_le (xs : List ℚ) : countLeadZeros xs ≤ xs.length := by
  induction xs with
  | nil => simp [countLeadZeros]
  | cons x l ih =>
    by_cases hx : x = 0
    · simp only [countLeadZeros, if_pos hx, List.length_cons]
      omega
    · simp [countLeadZeros, hx]

theorem countLeadZeros_cons_ne (x : ℚ) (l : List ℚ) (hx : x ≠ 0) :
    countLeadZeros (x :: l) = 0 := by
  simp [countLeadZeros, hx]

theorem countLeadZeros_getD_ne (xs : List ℚ) (h : countLeadZeros xs < xs.length) :
    xs.getD (countLeadZeros xs) 0 ≠ 0 := by
  induction xs with
  | nil => simp at h
  | cons x l ih =>
    by_cases hx : x = 0
    · have hc : countLeadZeros (x :: l) = countLeadZeros l + 1 := by
        simp [countLeadZeros, hx]
      rw [hc] at h ⊢
      simpa using ih (by simpa using h)
    · have hc : countLeadZeros (x :: l) = 0 := countLeadZeros_cons_ne _ _ hx
      rw [hc]
      simpa using hx

theorem countLeadZeros_le_of_getD (xs : List ℚ) (i : ℕ) (h : xs.getD i 0 ≠ 0) :
    countLeadZeros xs ≤ i := by
  induction xs generalizing i with
  | nil => simp [countLeadZeros]
  | cons x l ih =>
    by_cases hx : x = 0
    · cases i with
      | zero => rw [List.getD_cons_zero] at h; exact absurd hx h
      | succ i =>
        have hc : countLeadZeros (x :: l) = countLeadZeros l + 1 := by
          simp [countLeadZeros, hx]
        rw [hc]
        have := ih i (by simpa using h)
        omega
    · simp [countLeadZeros, hx]

theorem countLeadZeros_eq_zero (xs : List ℚ) (h0 : xs.getD 0 0 ≠ 0) :
    countLeadZeros xs = 0 := by
  cases xs with
  | nil => rfl
  | cons x l => exact countLeadZeros_cons_ne _ _ (by simpa using h0)

theorem getD_reverse (xs : List ℚ) (i : ℕ) (h : i < xs.length) :
    xs.reverse.getD i 0 = xs.getD (xs.length - 1 - i) 0 := by
  rw [List.getD_eq_getElem?_getD, List.getD_eq_getElem?_getD,
    List.getElem?_reverse h]

theorem getD_map_div (d0 : ℚ) (r : List ℚ) (i : ℕ) :
    (r.map (fun x => x / d0)).getD i 0 = (if i < r.length then r.getD i 0 / d0 else 0) := by
  by_cases h : i < r.length
  · rw [if_pos h, List.getD_eq_getElem?_getD, List.getD_eq_getElem?_getD,
      List.getElem?_map, List.getElem?_eq_getElem h]
    rfl
  · rw [if_neg h, List.getD_eq_getElem?_getD, List.getElem?_map,
      List.getElem?_eq_none (by simpa using Nat.le_of_not_lt h)]
    rfl

/-- `_trim_zeros(xs, 'f')` as an index slice. -/
theorem trim_zeros_f (xs : List ℚ) :
    trim_zeros xs ['f'] = (xs.drop (countLeadZeros xs)).take
      (xs.length - countLeadZeros xs.reverse - countLeadZeros xs) := by
  simp [trim_zeros, show (['f'].contains 'f') = true from by decide, Nat.sub_sub]

/-- A list whose first and last entries are nonzero is unchanged by
`_trim_zeros(xs, 'f')`. -/
theorem trim_zeros_f_id (xs : List ℚ) (h0 : xs.getD 0 0 ≠ 0)
    (hl : xs.getD (xs.length - 1) 0 ≠ 0) : trim_zeros xs ['f'] = xs := by
  have hne : xs.length ≠ 0 := by
    intro h
    rw [List.length_eq_zero] at h
    subst h
    exact h0 (by simp)
  have hu : countLeadZeros xs.reverse = 0 := by
    apply countLeadZeros_eq_zero
    rw [getD_reverse xs 0 (by omega)]
    simpa using hl
  rw [trim_zeros_f, countLeadZeros_eq_zero xs h0, hu]
  simp

/-- After `_trim_zeros(xs, 'f')` on a list with some nonzero entry, the
result is nonempty and both its first and last entries are nonzero. -/
theorem trim_zeros_f_spec (xs : List ℚ) (i : ℕ) (hi : i < xs.length)
    (hx : xs.getD i 0 ≠ 0) :
    trim_zeros xs ['f'] ≠ [] ∧
    (trim_zeros xs ['f']).getD 0 0 ≠ 0 ∧
    (trim_zeros xs ['f']).getD ((trim_zeros xs ['f']).length - 1) 0 ≠ 0 := by
  set t := countLeadZeros xs with ht
  set u := countLeadZeros xs.reverse with hu
  have htle : t ≤ i := countLeadZeros_le_of_getD xs i hx
  have hule : u ≤ xs.length - 1 - i := by
    apply countLeadZeros_le_of_getD
    rw [getD_reverse xs (xs.length - 1 - i) (by omega)]
    have : xs.length - 1 - (xs.length - 1 - i) = i := by omega
    rw [this]
    exact hx
  have hlen : (trim_zeros xs ['f']).length = xs.length - u - t := by
    rw [trim_zeros_f, List.length_take, List.length_drop]
    omega
  have hpos : 0 < xs.length - u - t := by omega
  refine ⟨?_, ?_, ?_⟩
  · intro hcontra
    rw [hcontra] at hlen
    simp at hlen
    omega
  · rw [trim_zeros_f, List.getD_eq_getElem?_getD, List.getElem?_take]
    rw [if_pos hpos, List.getElem?_drop]
    have : xs[t + 0]? = some (xs.getD t 0) := by
      rw [List.getElem?_eq_getElem (by omega), List.getD_eq_getElem?_getD,
        List.getElem?_eq_getElem (by omega : t < xs.length)]
      rfl
    rw [this]
    exact countLeadZeros_getD_ne xs (by omega)
  · rw [hlen, trim_zeros_f, List.getD_eq_getElem?_getD, List.getElem?_take]
    rw [if_pos (by omega : xs.length - u - t - 1 < xs.length - u - t),
      List.getElem?_drop]
    have hidx : t + (xs.length - u - t - 1) = xs.length - u - 1 := by omega
    rw [hidx]
    have : xs[xs.length - u - 1]? = some (xs.getD (xs.length - u - 1) 0) := by
      rw [List.getElem?_eq_getElem (by omega), List.getD_eq_getElem?_getD,
        List.getElem?_eq_getElem (by omega : xs.length - u - 1 < xs.length)]
      rfl
    rw [this]
    have hulen : u < xs.length := by omega
    have hr := countLeadZeros_getD_ne xs.reverse
      (by rw [List.length_reverse, ← hu]; exact hulen)
    rw [← hu] at hr
    rw [getD_reverse xs u hulen] at hr
    have : xs.length - 1 - u = xs.length - u - 1 := by omega
    rw [this] at hr
    exact hr

/-! Lemmas about the leading-column scan and the normalize fixed point. -/

theorem headD_eq_getD (l : List ℚ) (d : ℚ) : l.headD d = l.getD 0 d := by
  cases l <;> rfl

theorem countSmallFrom_le (rows : List (List ℚ)) (j left : ℕ) :
    countSmallFrom rows j left ≤ left := by
  induction left generalizing j with
  | zero => simp [countSmallFrom]
  | succ n ih =>
    by_cases h : ColSmall rows j
    · simp only [countSmallFrom, if_pos h]
      have := ih (j + 1)
      omega
    · simp [countSmallFrom, h]

theorem countSmallFrom_stop (rows : List (List ℚ)) (j left : ℕ)
    (h : countSmallFrom rows j left < left) :
    ¬ ColSmall rows (j + countSmallFrom rows j left) := by
  induction left generalizing j with
  | zero => simp at h
  | succ n ih =>
    by_cases hc : ColSmall rows j
    · have hstep : countSmallFrom rows j (n + 1) = countSmallFrom rows (j + 1) n + 1 := by
        simp [countSmallFrom, hc]
      rw [hstep] at h ⊢
      have hrec := ih (j + 1) (by omega)
      have harith : j + (countSmallFrom rows (j + 1) n + 1) =
          (j + 1) + countSmallFrom rows (j + 1) n := by omega
      rw [harith]
      exact hrec
    · have hstep : countSmallFrom rows j (n + 1) = 0 := by simp [countSmallFrom, hc]
      rw [hstep]
      simpa using hc

theorem countSmallFrom_all (rows : List (List ℚ)) (j left : ℕ)
    (h : countSmallFrom rows j left = left) :
    ∀ i, i < left → ColSmall rows (j + i) := by
  induction left generalizing j with
  | zero => omega
  | succ n ih =>
    by_cases hc : ColSmall rows j
    · have hstep : countSmallFrom rows j (n + 1) = countSmallFrom rows (j + 1) n + 1 := by
        simp [countSmallFrom, hc]
      have heq : countSmallFrom rows (j + 1) n = n := by omega
      intro i hi
      cases i with
      | zero => simpa using hc
      | succ i =>
        have := ih (j + 1) heq i (by omega)
        have harith : j + (i + 1) = (j + 1) + i := by omega
        rw [harith]
        exact this
    · have hstep : countSmallFrom rows j (n + 1) = 0 := by simp [countSmallFrom, hc]
      omega

theorem countSmallFrom_eq_zero (rows : List (List ℚ)) (j left : ℕ)
    (h : ¬ ColSmall rows j) : countSmallFrom rows j left = 0 := by
  cases left <;> simp [countSmallFrom, h]

theorem getD_drop (r : List ℚ) (k j : ℕ) :
    (r.drop k).getD j 0 = r.getD (k + j) 0 := by
  rw [List.getD_eq_getElem?_getD, List.getD_eq_getElem?_getD, List.getElem?_drop]

theorem ColSmall_map_drop (rows : List (List ℚ)) (k j : ℕ) :
    ColSmall (rows.map (List.drop k)) j ↔ ColSmall rows (k + j) := by
  simp [ColSmall, getD_drop]

/-- All rows have length `c` (the rank-2 shape invariant). -/
def Rect (rows : List (List ℚ)) (c : ℕ) : Prop := ∀ r ∈ rows, r.length = c

theorem headD_length_of_rect (rows : List (List ℚ)) (c : ℕ) (hne : rows ≠ [])
    (h : Rect rows c) : (rows.headD []).length = c := by
  cases rows with
  | nil => exact absurd rfl hne
  | cons r l => exact h r (by simp)

theorem map_div_one (l : List ℚ) : l.map (fun x : ℚ => x / 1) = l := by
  simp

/-- `normalizeCore` is the identity (up to the warning flag) on inputs that
satisfy the invariants its own output satisfies: denominator with leading
coefficient 1 and nonzero last coefficient, and a numerator block whose
leading column is not numerically zero unless only one column remains. -/
theorem normalizeCore_normal (rows : List (List ℚ)) (d : List ℚ) (c : ℕ)
    (hne : rows ≠ []) (hrect : Rect rows c)
    (h0 : d.getD 0 0 = 1) (hl : d.getD (d.length - 1) 0 ≠ 0)
    (hnum : countSmallFrom rows 0 c = 0 ∨ c ≤ 1) :
    ∃ w, normalizeCore rows d = .ok (squeeze rows, d, w) := by
  have hdne : d ≠ [] := by
    intro h
    subst h
    simp at h0
  have hnz : ¬ ∀ x ∈ d, x = 0 := by
    intro hall
    cases d with
    | nil => exact hdne rfl
    | cons y l =>
      have hy1 : y = 1 := by simpa using h0
      have hy0 : y = 0 := hall y (by simp)
      rw [hy1] at hy0
      exact one_ne_zero hy0
  have htrim : trim_zeros d ['f'] = d :=
    trim_zeros_f_id d (by rw [h0]; exact one_ne_zero) hl
  have hd0 : d.headD 0 = 1 := by rw [headD_eq_getD]; exact h0
  have hcols : (rows.headD []).length = c := headD_length_of_rect rows c hne hrect
  simp only [normalizeCore, if_neg hnz, htrim, hd0, div_one, List.map_id',
    map_div_one, hcols]
  by_cases hz : countSmallFrom rows 0 c = 0
  · refine ⟨false, ?_⟩
    rw [if_neg (by omega)]
  · have hle := countSmallFrom_le rows 0 c
    have hc1 : c ≤ 1 := by
      rcases hnum with h | h
      · exact absurd h hz
      · exact h
    have hcnt : countSmallFrom rows 0 c = 1 ∧ c = 1 := by omega
    refine ⟨true, ?_⟩
    rw [if_pos (by omega), if_pos (by omega), hcnt.1]
    have hdrop0 : rows.map (List.drop 0) = rows := by
      have h : (List.drop 0 : List ℚ → List ℚ) = fun l => l :=
        funext fun l => List.drop_zero l
      rw [h, List.map_id']
    rw [show (1 : ℕ) - 1 = 0 from rfl, hdrop0]

/-- What one pass of `normalizeCore` produces on any valid input: an `ok`
result whose denominator starts with `1` and ends with a nonzero entry, and
whose numerator block satisfies the scan invariant used by
`normalizeCore_normal`. -/
theorem normalizeCore_spec (rows : List (List ℚ)) (den : List ℚ) (c : ℕ)
    (hne : rows ≠ []) (hrect : Rect rows c)
    (hden : ∃ x ∈ den, x ≠ 0) :
    ∃ rows₂ d w c₂,
      normalizeCore rows den = .ok (squeeze rows₂, d, w) ∧
      rows₂ ≠ [] ∧ Rect rows₂ c₂ ∧
      d.getD 0 0 = 1 ∧ d.getD (d.length - 1) 0 ≠ 0 ∧
      (countSmallFrom rows₂ 0 c₂ = 0 ∨ c₂ ≤ 1) := by
  obtain ⟨x, hxmem, hx⟩ := hden
  obtain ⟨i, hilt, hig⟩ := List.getElem_of_mem hxmem
  have hi : den.getD i 0 ≠ 0 := by
    rw [List.getD_eq_getElem?_getD, List.getElem?_eq_getElem hilt, hig]
    exact hx
  have hnz : ¬ ∀ y ∈ den, y = 0 := fun hall => hx (hall x hxmem)
  obtain ⟨htne, h0, hlast⟩ := trim_zeros_f_spec den i hilt hi
  simp only [normalize, normalizeCore, if_neg hnz]
  set den1 := trim_zeros den ['f'] with hden1
  have hlpos : 0 < den1.length := List.length_pos.mpr htne
  set d0 := den1.headD 0 with hd0def
  have hd0 : d0 ≠ 0 := by rw [hd0def, headD_eq_getD]; exact h0
  set den2 := den1.map (fun x => x / d0) with hden2
  have hden2len : den2.length = den1.length := by rw [hden2, List.length_map]
  have hden2h : den2.getD 0 0 = 1 := by
    rw [hden2, getD_map_div, if_pos hlpos, ← headD_eq_getD, ← hd0def]
    exact div_self hd0
  have hden2l : den2.getD (den2.length - 1) 0 ≠ 0 := by
    rw [hden2len, hden2, getD_map_div, if_pos (by omega)]
    exact div_ne_zero hlast hd0
  set num1 := rows.map (fun r => r.map (fun x => x / d0)) with hnum1
  have hnum1ne : num1 ≠ [] := by
    rw [hnum1]
    simpa using hne
  have hnum1rect : Rect num1 c := by
    intro r hr
    rw [hnum1] at hr
    obtain ⟨r0, hr0, hr0e⟩ := List.mem_map.mp hr
    rw [← hr0e, List.length_map]
    exact hrect r0 hr0
  have hcols : (num1.headD []).length = c := headD_length_of_rect num1 c hnum1ne hnum1rect
  rw [hcols]
  have hle := countSmallFrom_le num1 0 c
  by_cases hlz : 0 < countSmallFrom num1 0 c
  · rw [if_pos hlz]
    by_cases heqc : countSmallFrom num1 0 c = c
    · rw [if_pos heqc]
      refine ⟨num1.map (List.drop (countSmallFrom num1 0 c - 1)), den2, true, 1,
        ?_, ?_, ?_, hden2h, hden2l, Or.inr le_rfl⟩
      · rfl
      · simpa using hnum1ne
      · intro r hr
        obtain ⟨r0, hr0, hr0e⟩ := List.mem_map.mp hr
        rw [← hr0e, List.length_drop, hnum1rect r0 hr0, heqc]
        omega
    · rw [if_neg heqc]
      have hltc : countSmallFrom num1 0 c < c := by omega
      refine ⟨num1.map (List.drop (countSmallFrom num1 0 c)), den2, true,
        c - countSmallFrom num1 0 c, ?_, ?_, ?_, hden2h, hden2l, Or.inl ?_⟩
      · rfl
      · simpa using hnum1ne
      · intro r hr
        obtain ⟨r0, hr0, hr0e⟩ := List.mem_map.mp hr
        rw [← hr0e, List.length_drop, hnum1rect r0 hr0]
      · apply countSmallFrom_eq_zero
        rw [ColSmall_map_drop]
        have := countSmallFrom_stop num1 0 c hltc
        simpa using this
  · rw [if_neg hlz]
    exact ⟨num1, den2, false, c, rfl, hnum1ne, hnum1rect, hden2h, hden2l,
      Or.inl (by omega)⟩

theorem le_foldr_max (l : List ℕ) (x : ℕ) (hx : x ∈ l) : x ≤ l.foldr max 0 := by
  induction l with
  | nil => simp at hx
  | cons y l ih =>
    rcases List.mem_cons.mp hx with h | h
    · subst h
      exact le_max_left _ _
    · exact le_trans (ih h) (le_max_right _ _)

theorem foldr_max_const (l : List ℕ) (c : ℕ) (hne : l ≠ []) (h : ∀ x ∈ l, x = c) :
    l.foldr max 0 = c := by
  induction l with
  | nil => exact absurd rfl hne
  | cons y l ih =>
    have hy := h y (by simp)
    cases l with
    | nil => simp [hy]
    | cons z t =>
      have hrec := ih (by simp) (fun x hx => h x (List.mem_cons_of_mem _ hx))
      simp [hy, hrec]

/-- The promoted numerator block is always a nonempty rectangle. -/
theorem toRank2_rect (b : NumOut) : toRank2 b ≠ [] ∧ ∃ c, Rect (toRank2 b) c := by
  cases b with
  | inl row =>
    refine ⟨by simp [toRank2], row.length, ?_⟩
    intro r hr
    simp only [toRank2, List.mem_singleton] at hr
    rw [hr]
  | inr rows =>
    by_cases hrows : rows = []
    · subst hrows
      refine ⟨by simp [toRank2, align_nums, atleast2d], 0, ?_⟩
      intro r hr
      simp [toRank2, align_nums, atleast2d] at hr
      simp [hr]
    · have halign : align_nums rows ≠ [] := by
        simp only [align_nums]
        split
        · exact hrows
        · simpa using hrows
      have h2 : toRank2 (.inr rows) = align_nums rows := by
        simp [toRank2, atleast2d, List.isEmpty_iff, halign]
      refine ⟨by rw [h2]; exact halign, (rows.map List.length).foldr max 0, ?_⟩
      rw [h2]
      simp only [align_nums]
      split
      · intro r hr
        next hall => exact hall r hr
      · intro r hr
        obtain ⟨r0, hr0, hr0e⟩ := List.mem_map.mp hr
        rw [← hr0e, List.length_append, List.length_replicate]
        have := le_foldr_max (rows.map List.length) r0.length
          (List.mem_map.mpr ⟨r0, hr0, rfl⟩)
        omega

/-- Re-promoting a squeezed nonempty rectangular block recovers it. -/
theorem toRank2_squeeze (rows : List (List ℚ)) (c : ℕ) (hne : rows ≠ [])
    (hrect : Rect rows c) : toRank2 (squeeze rows) = rows := by
  unfold squeeze
  by_cases h1 : rows.length = 1
  · rw [if_pos h1]
    obtain ⟨r, hr⟩ := List.length_eq_one.mp h1
    subst hr
    rfl
  · rw [if_neg h1]
    have hmax : (rows.map List.length).foldr max 0 = c := by
      apply foldr_max_const _ _ (by simpa using hne)
      intro x hx
      obtain ⟨r, hrm, hrr⟩ := List.mem_map.mp hx
      rw [← hrr]
      exact hrect r hrm
    have hcond : ∀ r ∈ rows, r.length = (rows.map List.length).foldr max 0 := by
      intro r hr
      rw [hmax]
      exact hrect r hr
    simp only [toRank2, align_nums, if_pos hcond, atleast2d]
    rw [if_neg (by simpa [List.isEmpty_iff] using hne)]

/-- Claim C3: `normalize` is idempotent and its returned denominator always
starts with `1`: for any numerator `b` and any denominator `a` with a nonzero
entry, `normalize(b, a)` succeeds with `den[0] = 1`, and applying `normalize`
to its own output returns the same numerator/denominator pair (exactly, in
exact rational arithmetic). -/
theorem claim3_normalize_idempotent (b : NumOut) (a : List ℚ)
    (h : ∃ x ∈ a, x ≠ 0) :
    ∃ n d w, normalize b a = .ok (n, d, w) ∧ d.headD 0 = 1 ∧
      ∃ w2, normalize n d = .ok (n, d, w2) := by
  obtain ⟨hne, c, hrect⟩ := toRank2_rect b
  obtain ⟨rows₂, d, w, c₂, heq, hne₂, hrect₂, h0, hlast, hnn⟩ :=
    normalizeCore_spec (toRank2 b) a c hne hrect h
  refine ⟨squeeze rows₂, d, w, heq, by rw [headD_eq_getD]; exact h0, ?_⟩
  obtain ⟨w2, hw2⟩ := normalizeCore_normal rows₂ d c₂ hne₂ hrect₂ h0 hlast hnn
  refine ⟨w2, ?_⟩
  rw [normalize, toRank2_squeeze rows₂ c₂ hne₂ hrect₂]
  exact hw2

/-- Witness for claim C3 at the concrete input `b = [1, 2]`, `a = [2, 1]`. -/
theorem claim3_normalize_idempotent_witness :
    ∃ n d w, normalize (.inl [1, 2]) [2, 1] = .ok (n, d, w) ∧ d.headD 0 = 1 ∧
      ∃ w2, normalize n d = .ok (n, d, w2) :=
  claim3_normalize_idempotent (.inl [1, 2]) [2, 1] ⟨2, by simp, by norm_num⟩

/-- Claim C2 (code bug witness): `_trim_zeros([0,1,0], 'b')` removes nothing
(the trailing loop tests `'f' in trim`, line 31), and `_trim_zeros([0,1,0],
'f')` strips both the leading and the trailing zero.  The claim (and the
numpy code the source cites) requires side `'b'` to strip exactly the
trailing zeros and side `'f'` exactly the leading ones. -/
theorem claim2_trim_zeros_side_selection :
    trim_zeros [0, 1, 0] ['b'] = [0, 1, 0] ∧ trim_zeros [0, 1, 0] ['f'] = [1] := by
  constructor <;>
    norm_num [trim_zeros, countLeadZeros,
      show ('f' = 'b') = False from by decide,
      show (['f'].contains 'f') = true from by decide]

/-- Claim C1 (code bug witness): `normalize([1], [1, 0])` returns denominator
`[1]`: the trailing zero of the input denominator is removed as well, because
`_trim_zeros`'s trailing pass runs for `trim='f'`.  The claim requires the
returned denominator to be `[1, 0]` (trailing zeros retained). -/
theorem claim1_normalize_drops_trailing_denominator_zero :
    normalize (.inl [1]) [1, 0] = .ok (.inl [1], [1], false) ∧
      ([1] : List ℚ) ≠ [1, 0] := by
  constructor
  · norm_num [normalize, normalizeCore, toRank2, trim_zeros, countLeadZeros,
      countSmallFrom, ColSmall, atol, squeeze, abs_le, lt_abs,
      show (['f'].contains 'f') = true from by decide]
  · simp

/-- Claim C4: `bilinear([1], [1, 1], fs=1)` returns numerator `[1/3, 1/3]`
and denominator `[1, -1/3]` (exact values of Tustin's substitution with
`fs = 1`, after normalization), with no ill-conditioning warning. -/
theorem claim4_bilinear_first_order_lowpass :
    bilinear [1] [1, 1] 1 = .ok (.inl [1/3, 1/3], [1, -1/3], false) := by
  norm_num [bilinear, comb, List.range_succ, normalize, normalizeCore, toRank2,
    trim_zeros, countLeadZeros, countSmallFrom, ColSmall, atol, squeeze,
    abs_le, lt_abs, show (['f'].contains 'f') = true from by decide]

/-! ZPK transforms over `ℂ` and the Butterworth prototype. -/

/-- `lp2lp_zpk(z, p, k, wo)` (lines 226-276): scale roots by `wo`, multiply
gain by `wo ** degree`.  The `_relative_degree` check (lines 158-167) raises
`ImproperTransferFunction` when there are more zeros than poles. -/
noncomputable def lp2lp_zpk (z p : List ℂ) (k wo : ℝ) :
    Except Unit (List ℂ × List ℂ × ℝ) :=
  if p.length < z.length then .error ()
  else .ok (z.map (fun x => (wo : ℂ) * x), p.map (fun x => (wo : ℂ) * x),
    k * wo ^ (p.length - z.length))

/-- `bilinear_zpk(z, p, k, fs)` (lines 170-223): Tustin map
`r -> (2*fs + r) / (2*fs - r)`, `degree` zeros appended at `-1`, gain times
`Re(prod(2*fs - z) / prod(2*fs - p))`. -/
noncomputable def bilinear_zpk (z p : List ℂ) (k fs : ℝ) :
    Except Unit (List ℂ × List ℂ × ℝ) :=
  if p.length < z.length then .error ()
  else
    let fs2 : ℂ := ((2 * fs : ℝ) : ℂ)
    let degree := p.length - z.length
    let z_z := z.map (fun x => (fs2 + x) / (fs2 - x)) ++ List.replicate degree (-1)
    let p_z := p.map (fun x => (fs2 + x) / (fs2 - x))
    let k_z := k * ((z.map (fun x => fs2 - x)).prod / (p.map (fun x => fs2 - x)).prod).re
    .ok (z_z, p_z, k_z)

/-- Claim C5 (counterexample): `lp2lp_zpk` is not the identity for *any*
input: with more zeros than poles (`z = [0]`, `p = []`) it raises
`ImproperTransferFunction` instead of returning the input triple. -/
theorem claim5_lp2lp_zpk_counterexample :
    lp2lp_zpk [0] [] 1 1 = .error () := by
  simp [lp2lp_zpk]

/-- Claim C5 (amended): for every input with at least as many poles as
zeros, `lp2lp_zpk(z, p, k, wo=1.0)` returns the same triple. -/
theorem claim5_lp2lp_zpk_identity (z p : List ℂ) (k : ℝ)
    (h : z.length ≤ p.length) :
    lp2lp_zpk z p k 1 = .ok (z, p, k) := by
  rw [lp2lp_zpk, if_neg (by omega)]
  simp

/-- Witness for the amended claim C5 at `z = [i]`, `p = [i, 2]`, `k = 1`. -/
theorem claim5_lp2lp_zpk_identity_witness :
    lp2lp_zpk [Complex.I] [Complex.I, 2] 1 1 = .ok ([Complex.I], [Complex.I, 2], 1) :=
  claim5_lp2lp_zpk_identity [Complex.I] [Complex.I, 2] 1 (by norm_num)

/-- Claim C10: whenever `len(p) >= len(z)`, `bilinear_zpk` returns zero and
pole lists that both have exactly `len(p)` elements (the `degree` zeros
appended at `-1` fill the relative degree). -/
theorem claim10_bilinear_zpk_lengths (z p : List ℂ) (k fs : ℝ)
    (h : z.length ≤ p.length) :
    ∃ zz pz kz, bilinear_zpk z p k fs = .ok (zz, pz, kz) ∧
      zz.length = p.length ∧ pz.length = p.length := by
  rw [bilinear_zpk, if_neg (by omega)]
  refine ⟨_, _, _, rfl, ?_, by simp⟩
  simp only [List.length_append, List.length_map, List.length_replicate]
  omega

/-- Witness for claim C10 at `z = []`, `p = [-1]`, `k = 1`, `fs = 1`. -/
theorem claim10_bilinear_zpk_lengths_witness :
    ∃ zz pz kz, bilinear_zpk [] [(-1 : ℂ)] 1 1 = .ok (zz, pz, kz) ∧
      zz.length = 1 ∧ pz.length = 1 :=
  claim10_bilinear_zpk_lengths [] [(-1 : ℂ)] 1 1 (by norm_num)

/-- `cupy.arange(start, stop, 2)` over the integers. -/
def arange2 (start stop : ℤ) : List ℤ :=
  (List.range ((stop - start + 1) / 2).toNat).map (fun (i : ℕ) => start + 2 * (i : ℤ))

/-- `buttap(N)` (lines 841-859): no zeros, poles `-exp(1j*pi*m/(2N))` for
`m = arange(-N+1, N, 2)`, gain 1.  `abs(int(N)) != N` rejects negative
orders. -/
noncomputable def buttap (N : ℤ) : Except Unit (List ℂ × List ℂ × ℝ) :=
  if |N| ≠ N then .error ()
  else
    let m := arange2 (-N + 1) N
    let p := m.map (fun (mi : ℤ) =>
      -Complex.exp (Complex.I * (Real.pi : ℂ) * (mi : ℂ) / (2 * (N : ℂ))))
    .ok ([], p, 1)

theorem arange2_buttap (N : ℤ) :
    arange2 (-N + 1) N = (List.range N.toNat).map (fun (i : ℕ) => -N + 1 + 2 * (i : ℤ)) := by
  unfold arange2
  have h1 : N - (-N + 1) + 1 = 2 * N := by ring
  rw [h1, Int.mul_ediv_cancel_left N (by norm_num)]

/-- Claim C9: for every `N >= 1`, `buttap(N)` succeeds with no zeros, unit
gain, exactly `N` poles, the pole multiset closed under complex conjugation,
and every pole with strictly negative real part. -/
theorem claim9_buttap_poles (N : ℤ) (h : 1 ≤ N) :
    ∃ ps, buttap N = .ok ([], ps, 1) ∧ ps.length = N.toNat ∧
      (∀ q ∈ ps, (starRingEnd ℂ) q ∈ ps) ∧ (∀ q ∈ ps, q.re < 0) := by
  have habs : ¬ (|N| ≠ N) := by
    rw [abs_of_nonneg (by omega : (0:ℤ) ≤ N)]
    simp
  refine ⟨(arange2 (-N + 1) N).map (fun (mi : ℤ) =>
      -Complex.exp (Complex.I * (Real.pi : ℂ) * (mi : ℂ) / (2 * (N : ℂ)))),
    by simp only [buttap, if_neg habs], ?_, ?_, ?_⟩
  · rw [arange2_buttap N]
    simp
  · intro q hq
    rw [arange2_buttap N] at hq ⊢
    simp only [List.mem_map, List.mem_range] at hq
    obtain ⟨mi, ⟨i, hi, hie⟩, hq⟩ := hq
    simp only [List.mem_map, List.mem_range]
    refine ⟨-mi, ⟨N.toNat - 1 - i, by omega, ?_⟩, ?_⟩
    · have hcast : ((N.toNat - 1 - i : ℕ) : ℤ) = N - 1 - (i : ℤ) := by omega
      rw [hcast, ← hie]
      ring
    · rw [← hq, map_neg, ← Complex.exp_conj]
      congr 2
      simp only [map_div₀, map_mul, Complex.conj_I, Complex.conj_ofReal,
        map_intCast, map_ofNat]
      push_cast
      ring
  · intro q hq
    rw [arange2_buttap N] at hq
    simp only [List.mem_map, List.mem_range] at hq
    obtain ⟨mi, ⟨i, hi, hie⟩, hq⟩ := hq
    have hmlt : mi < N := by omega
    have hmgt : -N < mi := by omega
    have hN : (0 : ℝ) < (N : ℝ) := by exact_mod_cast (by omega : (0:ℤ) < N)
    have hm1 : ((mi : ℝ)) < (N : ℝ) := by exact_mod_cast hmlt
    have hm2 : -((N : ℝ)) < (mi : ℝ) := by exact_mod_cast hmgt
    have hpi := Real.pi_pos
    have hrw : Complex.I * (Real.pi : ℂ) * (mi : ℂ) / (2 * (N : ℂ)) =
        ((Real.pi * (mi : ℝ) / (2 * (N : ℝ)) : ℝ) : ℂ) * Complex.I := by
      push_cast
      ring
    rw [← hq, hrw]
    have hub : Real.pi * (mi : ℝ) / (2 * (N : ℝ)) < Real.pi / 2 := by
      rw [div_lt_iff₀ (by positivity)]
      nlinarith
    have hlb : -(Real.pi / 2) < Real.pi * (mi : ℝ) / (2 * (N : ℝ)) := by
      rw [lt_div_iff₀ (by positivity)]
      nlinarith
    have hcos : 0 < Real.cos (Real.pi * (mi : ℝ) / (2 * (N : ℝ))) :=
      Real.cos_pos_of_mem_Ioo (Set.mem_Ioo.mpr ⟨hlb, hub⟩)
    rw [Complex.neg_re, Complex.exp_ofReal_mul_I_re]
    linarith

/-- Witness for claim C9 at `N = 2`. -/
theorem claim9_buttap_poles_witness :
    ∃ ps, buttap 2 = .ok ([], ps, 1) ∧ ps.length = (2 : ℤ).toNat ∧
      (∀ q ∈ ps, (starRingEnd ℂ) q ∈ ps) ∧ (∀ q ∈ ps, q.re < 0) :=
  claim9_buttap_poles 2 (by norm_num)

/-! The elliptic prototype's degeneracy check and the Landen recursion. -/

/-- `_pow10m1(x) = 10 ** x - 1`, computed as `expm1(log(10) * x)`
(lines 944-949). -/
noncomputable def pow10m1 (x : ℝ) : ℝ := Real.exp (Real.log 10 * x) - 1

/-- Control-flow outcome of `ellipap(N, rp, rs)` (lines 1094-1112), up to and
including the `ck1_sq == 0` degeneracy check.  The `general` constructor
carries the computed ripple factors with which the elliptic synthesis
(external special functions, out of the claim's scope) proceeds. -/
inductive EllipapOutcome where
  | invalidOrder : EllipapOutcome
  | order0 (k : ℝ) : EllipapOutcome
  | order1 (p k : ℝ) : EllipapOutcome
  | degenerate : EllipapOutcome
  | general (eps_sq ck1_sq : ℝ) : EllipapOutcome

/-- `ellipap(N, rp, rs)` (lines 1094-1112): order validation, the `N == 0`
and `N == 1` early returns, and the `ck1_sq == 0` degeneracy check, exactly
in source order. -/
noncomputable def ellipapOutcome (N : ℤ) (rp rs : ℝ) : EllipapOutcome :=
  if |N| ≠ N then .invalidOrder
  else if N = 0 then .order0 ((10 : ℝ) ^ (-rp / 20))
  else if N = 1 then
    let p := -Real.sqrt (1 / pow10m1 (0.1 * rp))
    .order1 p (-p)
  else
    let eps_sq := pow10m1 (0.1 * rp)
    let ck1_sq := eps_sq / pow10m1 (0.1 * rs)
    if ck1_sq = 0 then .degenerate
    else .general eps_sq ck1_sq

/-- Claim C7 (counterexample): with `N = 0`, `rp = 0`, `rs = 1` the ripple
ratio `ck1_sq` is zero, yet `ellipap` returns the `N == 0` early result
(gain `10 ** (-rp/20) = 1`) instead of failing: the degeneracy check is
never reached for `N < 2`. -/
theorem claim7_ellipap_degenerate_counterexample :
    ellipapOutcome 0 0 1 = .order0 1 ∧
      pow10m1 (0.1 * 0) / pow10m1 (0.1 * 1) = 0 ∧
      EllipapOutcome.order0 1 ≠ EllipapOutcome.degenerate := by
  refine ⟨?_, ?_, by simp⟩
  · have h1 : ((10 : ℝ) ^ (-(0 : ℝ) / 20)) = 1 := by
      norm_num
    simp only [ellipapOutcome, abs_zero, ne_eq, not_true_eq_false, if_false,
      if_pos rfl, h1]
    simp
  · simp [pow10m1]

/-- Claim C7 (amended): for every integer order `N ≥ 2` and ripple
parameters whose ratio `ck1_sq = (10^(0.1 rp) - 1) / (10^(0.1 rs) - 1)` is
zero, `ellipap(N, rp, rs)` fails with the degenerate-specification error. -/
theorem claim7_ellipap_degenerate (N : ℤ) (rp rs : ℝ) (hN : 2 ≤ N)
    (hck : pow10m1 (0.1 * rp) / pow10m1 (0.1 * rs) = 0) :
    ellipapOutcome N rp rs = .degenerate := by
  have habs : ¬ (|N| ≠ N) := by
    rw [abs_of_nonneg (by omega : (0:ℤ) ≤ N)]
    simp
  simp only [ellipapOutcome, if_neg habs, if_neg (by omega : ¬ N = 0),
    if_neg (by omega : ¬ N = 1), if_pos hck]

/-- Witness for the amended claim C7 at `N = 2`, `rp = 0`, `rs = 1`. -/
theorem claim7_ellipap_degenerate_witness :
    ellipapOutcome 2 0 1 = .degenerate :=
  claim7_ellipap_degenerate 2 0 1 (by norm_num)
    (by rw [show pow10m1 (0.1 * 0) = 0 from by simp [pow10m1], zero_div])

/-- One step `k -> (1 - k') / (1 + k')` of the Landen recursion, with
`k' = ((1 - k) * (1 + k)) ** 0.5` (`_complement`, lines 1011-1028). -/
noncomputable def landenNext (k : ℝ) : ℝ :=
  let kp := Real.sqrt ((1 - k) * (1 + k))
  (1 - kp) / (1 + kp)

/-- The `while ks[-1] != 0` loop of `_arc_jac_sn` (lines 1023-1031) with
`fuel` further iterations allowed before `niter > 10` raises
`LandenNotConverging`. -/
noncomputable def landenLoop : ℕ → List ℝ → ℝ → Except Unit (List ℝ)
  | 0, ks, last => if last = 0 then .ok ks else .error ()
  | fuel + 1, ks, last =>
    if last = 0 then .ok ks
    else landenLoop fuel (ks ++ [landenNext last]) (landenNext last)

/-- The Landen loop as entered by `_arc_jac_sn`: `ks = [k]`, at most 10
iterations (`_ARC_JAC_SN_MAXITER = 10`, line 1009). -/
noncomputable def landenKs (k : ℝ) : Except Unit (List ℝ) :=
  landenLoop 10 [k] k

/-- The Landen modulus sequence of `_arc_jac_sn(w, m)`: `k = m ** 0.5`
(line 1016) followed by the capped loop.  The `w` argument does not enter the
modulus recursion. -/
noncomputable def arcJacSnKs (m : ℝ) : Except Unit (List ℝ) :=
  landenKs (Real.sqrt m)

theorem landenLoop_error_iff (fuel : ℕ) (ks : List ℝ) (last : ℝ) :
    landenLoop fuel ks last = .error () ↔
      ∀ n, n ≤ fuel → landenNext^[n] last ≠ 0 := by
  induction fuel generalizing ks last with
  | zero =>
    by_cases h : last = 0
    · simp only [landenLoop, if_pos h]
      constructor
      · intro hc
        exact absurd hc (by simp)
      · intro hall
        exact absurd h (by simpa using hall 0 (by omega))
    · simp only [landenLoop, if_neg h]
      constructor
      · intro _ n hn
        interval_cases n
        simpa using h
      · intro _
        trivial
  | succ f ih =>
    by_cases h : last = 0
    · simp only [landenLoop, if_pos h]
      constructor
      · intro hc
        exact absurd hc (by simp)
      · intro hall
        exact absurd h (by simpa using hall 0 (by omega))
    · simp only [landenLoop, if_neg h]
      rw [ih]
      constructor
      · intro hall n hn
        cases n with
        | zero => simpa using h
        | succ n =>
          rw [Function.iterate_succ_apply]
          exact hall n (by omega)
      · intro hall n hn
        have := hall (n + 1) (by omega)
        rw [Function.iterate_succ_apply] at this
        exact this

theorem cons_map_range_iterate (k : ℝ) (j : ℕ) :
    k :: (List.range j).map (fun n => landenNext^[n] (landenNext k)) =
      (List.range (j + 1)).map (fun n => landenNext^[n] k) := by
  rw [List.range_succ_eq_map, List.map_cons]
  simp only [Function.iterate_zero_apply, List.map_map]
  rfl

theorem landenLoop_ok (fuel : ℕ) (ks : List ℝ) (last : ℝ) (l : List ℝ)
    (h : landenLoop fuel ks last = .ok l) :
    ∃ j, j ≤ fuel ∧ landenNext^[j] last = 0 ∧
      l = ks ++ (List.range j).map (fun n => landenNext^[n] (landenNext last)) := by
  induction fuel generalizing ks last with
  | zero =>
    by_cases h0 : last = 0
    · rw [landenLoop, if_pos h0] at h
      refine ⟨0, by omega, by simpa using h0, ?_⟩
      simpa using (Except.ok.inj h).symm
    · rw [landenLoop, if_neg h0] at h
      exact absurd h (by simp)
  | succ f ih =>
    by_cases h0 : last = 0
    · rw [landenLoop, if_pos h0] at h
      refine ⟨0, by omega, by simpa using h0, ?_⟩
      simpa using (Except.ok.inj h).symm
    · rw [landenLoop, if_neg h0] at h
      obtain ⟨j, hj, hz, hl⟩ := ih _ _ h
      refine ⟨j + 1, by omega, ?_, ?_⟩
      · rw [Function.iterate_succ_apply]
        exact hz
      · rw [hl, List.append_assoc, List.singleton_append,
          cons_map_range_iterate (landenNext last) j]

/-- Claim C8: the Landen recursion of `_arc_jac_sn(w, m)` (for `m ≥ 0`, so
`k = sqrt(m)`) always terminates under its hard iteration cap: it fails with
`LandenNotConverging` exactly when no iterate of the modulus map reaches 0
within 10 iterations, and on success it returns the strictly sequential
iterate list, of at most 11 entries (initial modulus plus at most 10
iterations), whose final entry is exactly 0. -/
theorem claim8_arc_jac_sn_landen_cap (m : ℝ) (_hm : 0 ≤ m) :
    (arcJacSnKs m = .error () ↔
      ∀ n, n ≤ 10 → landenNext^[n] (Real.sqrt m) ≠ 0) ∧
    (∀ l, arcJacSnKs m = .ok l →
      l.length ≤ 11 ∧ l.getLastD 1 = 0 ∧
      l = (List.range l.length).map (fun n => landenNext^[n] (Real.sqrt m))) := by
  constructor
  · exact landenLoop_error_iff 10 [Real.sqrt m] (Real.sqrt m)
  · intro l hl
    obtain ⟨j, hj, hz, hle⟩ := landenLoop_ok 10 [Real.sqrt m] (Real.sqrt m) l hl
    rw [List.singleton_append, cons_map_range_iterate (Real.sqrt m) j] at hle
    have hlen : l.length = j + 1 := by
      rw [hle]
      simp
    refine ⟨by omega, ?_, by rw [hlen, hle]⟩
    rw [hle, List.range_succ, List.map_append, List.map_singleton]
    rw [List.getLastD_concat]
    exact hz

/-- Witness for claim C8 at `m = 0` (the loop exits immediately with
`ks = [0]`). -/
theorem claim8_arc_jac_sn_landen_cap_witness :
    (arcJacSnKs 0 = .error () ↔
      ∀ n, n ≤ 10 → landenNext^[n] (Real.sqrt 0) ≠ 0) ∧
    (∀ l, arcJacSnKs 0 = .ok l →
      l.length ≤ 11 ∧ l.getLastD 1 = 0 ∧
      l = (List.range l.length).map (fun n => landenNext^[n] (Real.sqrt 0))) :=
  claim8_arc_jac_sn_landen_cap 0 le_rfl

end CupyxSignal
